import Mathlib

/-!
Verification of the uniform-cost search implementation in `src/main.py`.

The Python function `uniform_cost_search(graph, start, goal)` keeps a
priority queue (`heapq`) of `(cost, node, path)` tuples and a `visited`
set.  It pops the minimum tuple, returns `(path, cost)` when the popped
node is the goal, skips nodes already visited, and otherwise marks the
node visited and pushes `(cost + w, m, path + [m])` for every outgoing
edge `(m, w)` with `m` not yet visited.  When the queue empties it
returns `None`.  The edge list of the popped node is obtained by
`graph[current_node]`, which raises `KeyError` when the node is not a
key of the dictionary.

The embedding below mirrors this exactly:
* nodes are strings, costs are natural numbers (the data model of the
  spec fixes costs to be non-negative);
* the graph is an association list (Python `dict` with unique keys and
  first-match lookup);
* `heapq` is modelled by `heappop`, which removes the minimum element
  of the queue under Python's lexicographic tuple order
  (cost, then node string, then path list);
* the loop is written with explicit fuel; `SearchResult.outOfFuel` is
  an artefact of the fuel embedding and is proved unreachable for the
  fuel supplied by `uniform_cost_search`;
* `SearchResult.keyError n` models the Python `KeyError` raised by
  `graph[n]`.
-/

namespace UCS

abbrev Node := String

/-- A graph is a Python dict `{node: [(neighbour, cost), ...]}`,
modelled as an association list with first-match lookup. -/
abbrev Graph := List (Node × List (Node × Nat))

/-- `graph.get`-style lookup: `lookupGraph g n` is the edge list bound to
key `n`, or `none` when `n` is not a key (Python `graph[n]` raises). -/
def lookupGraph (g : Graph) (n : Node) : Option (List (Node × Nat)) :=
  match g with
  | [] => Option.none
  | (k, es) :: rest => if k = n then Option.some es else lookupGraph rest n

/-- `n` is a key of the dict. -/
def isKey (g : Graph) (n : Node) : Bool := (lookupGraph g n).isSome

/-- A frontier entry: the Python tuple `(cost, current_node, path)`. -/
structure Entry where
  cost : Nat
  node : Node
  path : List Node
deriving DecidableEq, Repr

/-- Python's element-wise lexicographic comparison of sequences, for a
strict element order `lt`: first differing position decides, a strict
prefix is smaller. -/
def lexLt {α : Type} (lt : α → α → Bool) : List α → List α → Bool
  | [], [] => false
  | [], _ :: _ => true
  | _ :: _, [] => false
  | a :: as, b :: bs =>
    if lt a b then true
    else if lt b a then false
    else lexLt lt as bs

/-- Python's `<` on single characters: code-point order. -/
def charLtB (a b : Char) : Bool := decide (a < b)

/-- Python string comparison: lexicographic on code points. -/
def strLt (a b : Node) : Bool := lexLt charLtB a.data b.data

/-- Python list comparison on paths (lists of node identifiers). -/
def listLt : List Node → List Node → Bool := lexLt strLt

/-- Python tuple comparison on `(cost, node, path)`: compare costs, then
node identifiers, then paths.  This is the order `heapq` uses. -/
def entryLt (a b : Entry) : Bool :=
  if a.cost < b.cost then true
  else if b.cost < a.cost then false
  else if strLt a.node b.node then true
  else if strLt b.node a.node then false
  else listLt a.path b.path

/-- Leftmost minimal entry of `e :: l` under `entryLt`. -/
def minEntry (e : Entry) : List Entry → Entry
  | [] => e
  | x :: xs => if entryLt x e then minEntry x xs else minEntry e xs

/-- Remove the first occurrence of `e` from the list. -/
def removeFirst (e : Entry) : List Entry → List Entry
  | [] => []
  | x :: xs => if x = e then xs else x :: removeFirst e xs

/-- `heapq.heappop`: remove and return the minimum element of the queue
under the tuple order `entryLt`; `none` on the empty queue. -/
def heappop (q : List Entry) : Option (Entry × List Entry) :=
  match q with
  | [] => Option.none
  | x :: xs =>
    let m := minEntry x xs
    Option.some (m, removeFirst m (x :: xs))

/-- The outcome of one call of `uniform_cost_search`:
`found path cost` is Python's `return (path, cost)`, `nopath` is
`return None`, `keyError n` is the `KeyError` raised by `graph[n]`,
and `outOfFuel` is the fuel artefact (proved unreachable). -/
inductive SearchResult where
  | found (path : List Node) (cost : Nat)
  | nopath
  | keyError (n : Node)
  | outOfFuel
deriving DecidableEq, Repr

/-- The `while queue:` loop of `uniform_cost_search`, with fuel.
Each unfolding is one iteration: pop the minimum entry, return on the
goal, skip visited nodes, otherwise mark visited and push every
not-yet-visited neighbour with accumulated cost and extended path. -/
def ucsLoop (g : Graph) (goal : Node) : Nat → List Entry → List Node → SearchResult
  | 0, queue, _ =>
    match heappop queue with
    | Option.none => SearchResult.nopath
    | Option.some _ => SearchResult.outOfFuel
  | fuel + 1, queue, visited =>
    match heappop queue with
    | Option.none => SearchResult.nopath
    | Option.some (e, rest) =>
      if e.node = goal then SearchResult.found e.path e.cost
      else if e.node ∈ visited then ucsLoop g goal fuel rest visited
      else
        match lookupGraph g e.node with
        | Option.none => SearchResult.keyError e.node
        | Option.some edges =>
          ucsLoop g goal fuel
            (rest ++ (edges.filter fun q => decide (q.1 ∉ e.node :: visited)).map
              fun q => Entry.mk (e.cost + q.2) q.1 (e.path ++ [q.1]))
            (e.node :: visited)

/-- `1 + outdegree` summed over the keys of `g` outside `visited`; the
bound on the number of loop iterations still possible. -/
def unvisitedWeight (g : Graph) (visited : List Node) : Nat :=
  match g with
  | [] => 0
  | (k, es) :: rest =>
    (if k ∈ visited then 0 else 1 + es.length) + unvisitedWeight rest visited

/-- Fuel sufficient for a full run: the initial queue length (1) plus
`unvisitedWeight` of the whole graph. -/
def graphFuel (g : Graph) : Nat := unvisitedWeight g [] + 1

/-- `uniform_cost_search(graph, start, goal)` from `src/main.py`:
push `(0, start, [start])` and run the loop. -/
def uniform_cost_search (g : Graph) (start goal : Node) : SearchResult :=
  ucsLoop g goal (graphFuel g) [Entry.mk 0 start [start]] []

/-- There is an edge `u → v` of cost `w`: `v, w` occurs in the edge
list the graph binds to `u`. -/
def hasEdge (g : Graph) (u v : Node) (w : Nat) : Prop :=
  ∃ es, lookupGraph g u = Option.some es ∧ (v, w) ∈ es

/-- `PathCost g s v p c`: `p` is a walk in `g` from `s` to `v` (listed
start to end, endpoints included, possibly revisiting nodes) whose edge
costs sum to `c`. -/
inductive PathCost (g : Graph) (s : Node) : Node → List Node → Nat → Prop where
  | refl : PathCost g s s [s] 0
  | snoc (u v : Node) (p : List Node) (c w : Nat) :
      PathCost g s u p c → hasEdge g u v w → PathCost g s v (p ++ [v]) (c + w)

/-- `v` is reachable from `s` in `g`. -/
def Reachable (g : Graph) (s v : Node) : Prop := ∃ p c, PathCost g s v p c

/-- Every node reachable from `s` is present as a key of `g` (the
hypothesis under which `graph[current_node]` can never raise). -/
def KeysClosed (g : Graph) (s : Node) : Prop :=
  ∀ v, Reachable g s v → isKey g v = true

/-- Decidable sufficient condition for `KeysClosed`: the start node and
every edge target are keys of `g`. -/
def keysClosedB (g : Graph) (s : Node) : Bool :=
  isKey g s && g.all fun p => p.2.all fun q => isKey g q.1

/-- The example graph of `src/main.py`. -/
def mainGraph : Graph :=
  [("A", [("B", 1), ("C", 5)]),
   ("B", [("C", 2)]),
   ("C", [])]

/-- The ten-node example graph of `src/test.py`. -/
def testGraph : Graph :=
  [("A", [("B", 2), ("C", 1), ("D", 7)]),
   ("B", [("E", 5), ("F", 3)]),
   ("C", [("B", 4), ("F", 6)]),
   ("D", [("G", 8), ("C", 2)]),
   ("E", [("H", 3)]),
   ("F", [("H", 2), ("I", 4)]),
   ("G", [("J", 4)]),
   ("H", [("I", 1), ("J", 2)]),
   ("I", [("J", 3)]),
   ("J", [])]

/-! ### The tuple order used by the heap is a strict linear order -/

lemma bool_eq_false {b : Bool} (h : ¬ b = true) : b = false := by
  cases b
  · rfl
  · exact absurd rfl h

lemma lexLt_irrefl {α : Type} (lt : α → α → Bool)
    (hirr : ∀ a, lt a a = false) (p : List α) : lexLt lt p p = false := by
  induction p with
  | nil => rfl
  | cons a as ih =>
    simp only [lexLt, hirr a]
    simpa using ih

lemma lexLt_trans {α : Type} (lt : α → α → Bool)
    (htrans : ∀ {a b c}, lt a b = true → lt b c = true → lt a c = true)
    (hconn : ∀ {a b}, lt a b = false → lt b a = false → a = b) :
    ∀ p q r, lexLt lt p q = true → lexLt lt q r = true →
      lexLt lt p r = true := by
  intro p
  induction p with
  | nil =>
    intro q r h1 h2
    cases q with
    | nil => simp [lexLt] at h1
    | cons b bs =>
      cases r with
      | nil => simp [lexLt] at h2
      | cons c cs => simp [lexLt]
  | cons a as ih =>
    intro q r h1 h2
    cases q with
    | nil => simp [lexLt] at h1
    | cons b bs =>
      cases r with
      | nil => simp [lexLt] at h2
      | cons c cs =>
        simp only [lexLt] at h1 h2 ⊢
        by_cases hab : lt a b = true
        · by_cases hbc : lt b c = true
          · rw [if_pos (htrans hab hbc)]
          · by_cases hcb : lt c b = true
            · rw [if_neg hbc, if_pos hcb] at h2
              cases h2
            · have heq : b = c := hconn (bool_eq_false hbc) (bool_eq_false hcb)
              subst heq
              rw [if_pos hab]
        · by_cases hba : lt b a = true
          · rw [if_neg hab, if_pos hba] at h1
            cases h1
          · have heq : a = b := hconn (bool_eq_false hab) (bool_eq_false hba)
            subst heq
            rw [if_neg hab, if_neg hba] at h1
            by_cases hac : lt a c = true
            · rw [if_pos hac]
            · by_cases hca : lt c a = true
              · rw [if_neg hac, if_pos hca] at h2
                cases h2
              · rw [if_neg hac, if_neg hca] at h2 ⊢
                exact ih _ _ h1 h2

lemma lexLt_connex {α : Type} (lt : α → α → Bool)
    (hconn : ∀ {a b}, lt a b = false → lt b a = false → a = b) :
    ∀ p q, lexLt lt p q = false → lexLt lt q p = false → p = q := by
  intro p
  induction p with
  | nil =>
    intro q h1 _
    cases q with
    | nil => rfl
    | cons b bs => simp [lexLt] at h1
  | cons a as ih =>
    intro q h1 h2
    cases q with
    | nil => simp [lexLt] at h2
    | cons b bs =>
      simp only [lexLt] at h1 h2
      by_cases hab : lt a b = true
      · rw [if_pos hab] at h1
        cases h1
      · by_cases hba : lt b a = true
        · rw [if_neg hab, if_pos hba] at h2
          cases h2
        · have heq : a = b := hconn (bool_eq_false hab) (bool_eq_false hba)
          subst heq
          rw [if_neg hab, if_neg hba] at h1 h2
          rw [ih _ h1 h2]

lemma charLtB_irrefl (a : Char) : charLtB a a = false :=
  decide_eq_false (lt_irrefl a)

lemma charLtB_trans {a b c : Char} (h1 : charLtB a b = true)
    (h2 : charLtB b c = true) : charLtB a c = true :=
  decide_eq_true (lt_trans (of_decide_eq_true h1) (of_decide_eq_true h2))

lemma charLtB_connex {a b : Char} (h1 : charLtB a b = false)
    (h2 : charLtB b a = false) : a = b :=
  le_antisymm (not_lt.mp (of_decide_eq_false h2))
    (not_lt.mp (of_decide_eq_false h1))

lemma strLt_irrefl (a : Node) : strLt a a = false :=
  lexLt_irrefl charLtB charLtB_irrefl a.data

lemma strLt_trans {a b c : Node} (h1 : strLt a b = true)
    (h2 : strLt b c = true) : strLt a c = true :=
  lexLt_trans charLtB (fun h1 h2 => charLtB_trans h1 h2)
    (fun h1 h2 => charLtB_connex h1 h2) a.data b.data c.data h1 h2

lemma strLt_connex {a b : Node} (h1 : strLt a b = false)
    (h2 : strLt b a = false) : a = b := by
  have hd : a.data = b.data :=
    lexLt_connex charLtB (fun h1 h2 => charLtB_connex h1 h2) a.data b.data h1 h2
  cases a with
  | mk da =>
    cases b with
    | mk db => exact congrArg String.mk hd

lemma listLt_irrefl (p : List Node) : listLt p p = false :=
  lexLt_irrefl strLt strLt_irrefl p

lemma listLt_trans {p q r : List Node} (h1 : listLt p q = true)
    (h2 : listLt q r = true) : listLt p r = true :=
  lexLt_trans strLt (fun h1 h2 => strLt_trans h1 h2)
    (fun h1 h2 => strLt_connex h1 h2) p q r h1 h2

lemma listLt_connex {p q : List Node} (h1 : listLt p q = false)
    (h2 : listLt q p = false) : p = q :=
  lexLt_connex strLt (fun h1 h2 => strLt_connex h1 h2) p q h1 h2

lemma entryLt_irrefl (a : Entry) : entryLt a a = false := by
  simp [entryLt, listLt_irrefl, strLt_irrefl]

lemma entryLt_trans {a b c : Entry} (h1 : entryLt a b = true)
    (h2 : entryLt b c = true) : entryLt a c = true := by
  simp only [entryLt] at h1 h2 ⊢
  by_cases hab : a.cost < b.cost
  · by_cases hbc : b.cost < c.cost
    · simp [lt_trans hab hbc]
    · by_cases hcb : c.cost < b.cost
      · simp [hbc, hcb] at h2
      · have hbceq : b.cost = c.cost := le_antisymm (not_lt.mp hcb) (not_lt.mp hbc)
        simp [hbceq ▸ hab]
  · by_cases hba : b.cost < a.cost
    · simp [hab, hba] at h1
    · have habeq : a.cost = b.cost := le_antisymm (not_lt.mp hba) (not_lt.mp hab)
      rw [habeq]
      simp only [if_neg hab, if_neg hba] at h1
      by_cases hbc : b.cost < c.cost
      · simp [hbc]
      · by_cases hcb : c.cost < b.cost
        · simp [hbc, hcb] at h2
        · simp only [if_neg hbc, if_neg hcb] at h2 ⊢
          by_cases hn1 : strLt a.node b.node = true
          · by_cases hn2 : strLt b.node c.node = true
            · simp [strLt_trans hn1 hn2]
            · by_cases hn3 : strLt c.node b.node = true
              · simp [hn2, hn3] at h2
              · have hnodes : b.node = c.node :=
                  strLt_connex (bool_eq_false hn2) (bool_eq_false hn3)
                simp [hnodes ▸ hn1]
          · by_cases hn4 : strLt b.node a.node = true
            · simp [hn1, hn4] at h1
            · have hneq : a.node = b.node :=
                strLt_connex (bool_eq_false hn1) (bool_eq_false hn4)
              rw [hneq]
              simp only [if_neg hn1, if_neg hn4] at h1
              by_cases hn2 : strLt b.node c.node = true
              · simp [hn2]
              · by_cases hn3 : strLt c.node b.node = true
                · simp [hn2, hn3] at h2
                · simp only [if_neg hn2, if_neg hn3] at h2 ⊢
                  exact listLt_trans h1 h2

lemma entryLt_connex {a b : Entry} (h1 : entryLt a b = false)
    (h2 : entryLt b a = false) : a = b := by
  simp only [entryLt] at h1 h2
  by_cases hc1 : a.cost < b.cost
  · simp [hc1] at h1
  · by_cases hc2 : b.cost < a.cost
    · simp [hc1, hc2] at h2
    · have hceq : a.cost = b.cost := le_antisymm (not_lt.mp hc2) (not_lt.mp hc1)
      simp only [if_neg hc1, if_neg hc2] at h1 h2
      by_cases hn1 : strLt a.node b.node = true
      · simp [hn1] at h1
      · by_cases hn2 : strLt b.node a.node = true
        · simp [hn1, hn2] at h2
        · have hneq : a.node = b.node :=
            strLt_connex (bool_eq_false hn1) (bool_eq_false hn2)
          simp only [if_neg hn1, if_neg hn2] at h1 h2
          have hpeq : a.path = b.path := listLt_connex h1 h2
          cases a with
          | mk ac an ap =>
            cases b with
            | mk bc bn bp =>
              simp_all

lemma entryLt_cost_le {a b : Entry} (h : entryLt a b = false) :
    b.cost ≤ a.cost := by
  simp only [entryLt] at h
  by_cases hc : a.cost < b.cost
  · simp [hc] at h
  · exact not_lt.mp hc

/-! ### Specification of the heap operations -/

lemma minEntry_mem (e : Entry) (l : List Entry) :
    minEntry e l = e ∨ minEntry e l ∈ l := by
  induction l generalizing e with
  | nil => left; rfl
  | cons x xs ih =>
    simp only [minEntry]
    by_cases h : entryLt x e = true
    · rw [if_pos h]
      rcases ih x with h' | h'
      · right; rw [h']; exact List.mem_cons_self _ _
      · right; exact List.mem_cons_of_mem _ h'
    · rw [if_neg h]
      rcases ih e with h' | h'
      · left; exact h'
      · right; exact List.mem_cons_of_mem _ h'

lemma minEntry_min (e : Entry) (l : List Entry) :
    ∀ x, x ∈ e :: l → entryLt x (minEntry e l) = false := by
  induction l generalizing e with
  | nil =>
    intro x hx
    rcases List.mem_cons.mp hx with h | h
    · rw [h]; exact entryLt_irrefl e
    · cases h
  | cons y ys ih =>
    intro x hx
    simp only [minEntry]
    by_cases h : entryLt y e = true
    · rw [if_pos h]
      rcases List.mem_cons.mp hx with rfl | hx'
      · by_contra hc
        have hc' : entryLt x (minEntry y ys) = true := by
          cases hxy : entryLt x (minEntry y ys) with
          | false => exact absurd hxy hc
          | true => rfl
        have : entryLt y (minEntry y ys) = true := entryLt_trans h hc'
        rw [ih y y (List.mem_cons_self _ _)] at this
        cases this
      · exact ih y x hx'
    · rw [if_neg h]
      have hne : entryLt y e = false := by
        cases hye : entryLt y e with
        | false => rfl
        | true => exact absurd hye h
      rcases List.mem_cons.mp hx with rfl | hx'
      · exact ih _ _ (List.mem_cons_self _ _)
      · rcases List.mem_cons.mp hx' with rfl | hx''
        · by_contra hc
          have hc' : entryLt x (minEntry e ys) = true := by
            cases hxy : entryLt x (minEntry e ys) with
            | false => exact absurd hxy hc
            | true => rfl
          by_cases hex : entryLt e x = true
          · have : entryLt e (minEntry e ys) = true := entryLt_trans hex hc'
            rw [ih e e (List.mem_cons_self _ _)] at this
            cases this
          · have hexf : entryLt e x = false := by
              cases h' : entryLt e x with
              | false => rfl
              | true => exact absurd h' hex
            have : e = x := entryLt_connex hexf hne
            rw [← this] at hc'
            rw [ih e e (List.mem_cons_self _ _)] at hc'
            cases hc'
        · exact ih e x (List.mem_cons_of_mem _ hx'')

lemma removeFirst_subset {x e : Entry} {l : List Entry}
    (h : x ∈ removeFirst e l) : x ∈ l := by
  induction l with
  | nil => cases h
  | cons y ys ih =>
    simp only [removeFirst] at h
    by_cases hy : y = e
    · rw [if_pos hy] at h
      exact List.mem_cons_of_mem _ h
    · rw [if_neg hy] at h
      rcases List.mem_cons.mp h with rfl | h'
      · exact List.mem_cons_self _ _
      · exact List.mem_cons_of_mem _ (ih h')

lemma mem_removeFirst_of_ne {x e : Entry} {l : List Entry}
    (hx : x ∈ l) (hne : x ≠ e) : x ∈ removeFirst e l := by
  induction l with
  | nil => cases hx
  | cons y ys ih =>
    simp only [removeFirst]
    by_cases hy : y = e
    · rw [if_pos hy]
      rcases List.mem_cons.mp hx with rfl | h'
      · exact absurd hy hne
      · exact h'
    · rw [if_neg hy]
      rcases List.mem_cons.mp hx with rfl | h'
      · exact List.mem_cons_self _ _
      · exact List.mem_cons_of_mem _ (ih h')

lemma removeFirst_length {e : Entry} {l : List Entry} (h : e ∈ l) :
    (removeFirst e l).length + 1 = l.length := by
  induction l with
  | nil => cases h
  | cons y ys ih =>
    simp only [removeFirst]
    by_cases hy : y = e
    · rw [if_pos hy]
      simp
    · rw [if_neg hy]
      rcases List.mem_cons.mp h with rfl | h'
      · exact absurd rfl hy
      · simp only [List.length_cons]
        rw [← ih h']

lemma heappop_nil_iff {q : List Entry} :
    heappop q = Option.none ↔ q = [] := by
  cases q with
  | nil => simp [heappop]
  | cons x xs => simp [heappop]

lemma heappop_spec {q : List Entry} {e : Entry} {rest : List Entry}
    (h : heappop q = Option.some (e, rest)) :
    e ∈ q ∧ rest = removeFirst e q ∧ ∀ x ∈ q, entryLt x e = false := by
  cases q with
  | nil => simp [heappop] at h
  | cons x xs =>
    simp only [heappop, Option.some.injEq, Prod.mk.injEq] at h
    obtain ⟨he, hrest⟩ := h
    refine ⟨?_, ?_, ?_⟩
    · rw [← he]
      rcases minEntry_mem x xs with h' | h'
      · rw [h']; exact List.mem_cons_self _ _
      · exact List.mem_cons_of_mem _ h'
    · rw [← hrest, ← he]
    · intro y hy
      rw [← he]
      exact minEntry_min x xs y hy

lemma heappop_cost_le {q : List Entry} {e : Entry} {rest : List Entry}
    (h : heappop q = Option.some (e, rest)) :
    ∀ x ∈ q, e.cost ≤ x.cost := by
  intro x hx
  exact entryLt_cost_le ((heappop_spec h).2.2 x hx)

lemma heappop_length {q : List Entry} {e : Entry} {rest : List Entry}
    (h : heappop q = Option.some (e, rest)) :
    rest.length + 1 = q.length := by
  obtain ⟨hm, hr, _⟩ := heappop_spec h
  rw [hr]
  exact removeFirst_length hm

/-! ### Paths: structural facts -/

lemma PathCost.ne_nil {g : Graph} {s v : Node} {p : List Node} {c : Nat}
    (h : PathCost g s v p c) : p ≠ [] := by
  cases h with
  | refl => simp
  | snoc u v p c w _ _ => simp

lemma pathCost_head {g : Graph} {s v : Node} {p : List Node} {c : Nat}
    (h : PathCost g s v p c) : p.head? = Option.some s := by
  induction h with
  | refl => rfl
  | snoc u v p c w hp _ ih =>
    cases p with
    | nil => simp at ih
    | cons a as => simpa using ih

lemma pathCost_last {g : Graph} {s v : Node} {p : List Node} {c : Nat}
    (h : PathCost g s v p c) : p.getLast? = Option.some v := by
  induction h with
  | refl => rfl
  | snoc u v p c w hp _ _ =>
    cases p with
    | nil => exact absurd rfl hp.ne_nil
    | cons a as => exact List.getLast?_concat _

lemma pathCost_chain {g : Graph} {s v : Node} {p : List Node} {c : Nat}
    (h : PathCost g s v p c) :
    List.Chain' (fun a b => ∃ w, hasEdge g a b w) p := by
  induction h with
  | refl => simp
  | snoc u v p c w hp he ih =>
    rw [List.chain'_append]
    refine ⟨ih, by simp, ?_⟩
    intro x hx y hy
    rw [pathCost_last hp] at hx
    simp only [Option.mem_def, Option.some.injEq] at hx
    simp only [List.head?_cons, Option.mem_def, Option.some.injEq] at hy
    subst hx; subst hy
    exact ⟨w, he⟩

/-! ### Graph lookup -/

lemma lookupGraph_mem {g : Graph} {n : Node} {es : List (Node × Nat)}
    (h : lookupGraph g n = Option.some es) : (n, es) ∈ g := by
  induction g with
  | nil => simp [lookupGraph] at h
  | cons p rest ih =>
    obtain ⟨k, es'⟩ := p
    simp only [lookupGraph] at h
    by_cases hk : k = n
    · rw [if_pos hk] at h
      subst hk
      simp only [Option.some.injEq] at h
      subst h
      exact List.mem_cons_self _ _
    · rw [if_neg hk] at h
      exact List.mem_cons_of_mem _ (ih h)

/-- The decidable closure check implies closure over all reachable
nodes. -/
lemma keysClosedB_implies {g : Graph} {s : Node}
    (h : keysClosedB g s = true) : KeysClosed g s := by
  simp only [keysClosedB, Bool.and_eq_true, List.all_eq_true] at h
  obtain ⟨hs, hall⟩ := h
  intro v hv
  obtain ⟨p, c, hp⟩ := hv
  induction hp with
  | refl => exact hs
  | snoc u v p c w _ he _ =>
    obtain ⟨es, hlk, hmem⟩ := he
    have := hall _ (lookupGraph_mem hlk)
    simpa using this _ hmem

/-! ### The termination measure -/

lemma unvisitedWeight_mono {g : Graph} {v v' : List Node}
    (h : ∀ x ∈ v, x ∈ v') : unvisitedWeight g v' ≤ unvisitedWeight g v := by
  induction g with
  | nil => exact le_refl _
  | cons p rest ih =>
    obtain ⟨k, es⟩ := p
    simp only [unvisitedWeight]
    refine Nat.add_le_add ?_ ih
    by_cases hk : k ∈ v
    · simp [hk, h k hk]
    · rw [if_neg hk]
      by_cases hk' : k ∈ v'
      · simp [hk']
      · simp [hk']

lemma unvisitedWeight_expand {g : Graph} {n : Node} {es : List (Node × Nat)}
    {visited : List Node} (hlk : lookupGraph g n = Option.some es)
    (hn : n ∉ visited) :
    unvisitedWeight g (n :: visited) + (1 + es.length) ≤
      unvisitedWeight g visited := by
  induction g with
  | nil => simp [lookupGraph] at hlk
  | cons p rest ih =>
    obtain ⟨k, es'⟩ := p
    simp only [lookupGraph] at hlk
    by_cases hk : k = n
    · rw [if_pos hk] at hlk
      simp only [Option.some.injEq] at hlk
      subst hk; subst hlk
      simp only [unvisitedWeight, if_neg hn, List.mem_cons, true_or, if_pos,
        if_true]
      have hmono : unvisitedWeight rest (k :: visited) ≤
          unvisitedWeight rest visited :=
        unvisitedWeight_mono (by intro x hx; exact List.mem_cons_of_mem _ hx)
      omega
    · rw [if_neg hk] at hlk
      have := ih hlk
      simp only [unvisitedWeight]
      have hcond : (k ∈ n :: visited) ↔ (k ∈ visited) := by
        simp [List.mem_cons, hk]
      by_cases hkv : k ∈ visited
      · rw [if_pos (hcond.mpr hkv), if_pos hkv]
        omega
      · rw [if_neg (fun hc => hkv (hcond.mp hc)), if_neg hkv]
        omega

/-! ### The main loop invariant

`D` is a ghost record of the cost at which each visited node was
finalized.  `sound` says every frontier entry carries a genuine path
and its cost; `startW` and `edgeW` say the frontier covers the start
node and every edge leaving the visited region; `visBound` says each
visited node was finalized at a cost no larger than that of any path
to it; `goalNotVis` records that the goal can never enter the visited
set (the goal test precedes the visited test in the loop). -/
structure Inv (g : Graph) (s goal : Node) (queue : List Entry)
    (visited : List Node) (D : Node → Nat) : Prop where
  sound : ∀ e ∈ queue, PathCost g s e.node e.path e.cost
  startW : s ∉ visited → ∃ e ∈ queue, e.node = s ∧ e.cost = 0
  edgeW : ∀ u ∈ visited, ∀ v w, hasEdge g u v w → v ∉ visited →
    ∃ e ∈ queue, e.node = v ∧ e.cost ≤ D u + w
  visBound : ∀ u ∈ visited, ∀ p c, PathCost g s u p c → D u ≤ c
  goalNotVis : goal ∉ visited

lemma inv_init (g : Graph) (s goal : Node) :
    Inv g s goal [Entry.mk 0 s [s]] [] (fun _ => 0) := by
  refine ⟨?_, ?_, ?_, ?_, ?_⟩
  · intro e he
    simp only [List.mem_singleton] at he
    subst he
    exact PathCost.refl
  · intro _
    exact ⟨Entry.mk 0 s [s], List.mem_singleton.mpr rfl, rfl, rfl⟩
  · intro u hu
    cases hu
  · intro u hu
    cases hu
  · simp

/-- The popped minimum bounds the cost of every path to every
unvisited node: the key step of Dijkstra-style optimality. -/
lemma key_bound {g : Graph} {s goal : Node} {queue : List Entry}
    {visited : List Node} {D : Node → Nat}
    (inv : Inv g s goal queue visited D) {b : Nat}
    (hmin : ∀ x ∈ queue, b ≤ x.cost) :
    ∀ {v : Node} {p : List Node} {c : Nat}, PathCost g s v p c →
      v ∉ visited → b ≤ c := by
  intro v p c hp
  induction hp with
  | refl =>
    intro hs
    obtain ⟨e, he, _, hc⟩ := inv.startW hs
    have := hmin e he
    omega
  | snoc u v p c w hp he ih =>
    intro hv
    by_cases hu : u ∈ visited
    · obtain ⟨e, heq, hnode, hcost⟩ := inv.edgeW u hu v w he hv
      have h1 := hmin e heq
      have h2 := inv.visBound u hu p c hp
      omega
    · have := ih hu
      omega

/-- Discarding a stale entry for an already-visited node preserves the
invariant. -/
lemma inv_discard {g : Graph} {s goal : Node} {queue rest : List Entry}
    {e : Entry} {visited : List Node} {D : Node → Nat}
    (inv : Inv g s goal queue visited D)
    (hpop : heappop queue = Option.some (e, rest))
    (hvis : e.node ∈ visited) :
    Inv g s goal rest visited D := by
  obtain ⟨hmem, hrest, _⟩ := heappop_spec hpop
  subst hrest
  refine ⟨?_, ?_, ?_, inv.visBound, inv.goalNotVis⟩
  · intro x hx
    exact inv.sound x (removeFirst_subset hx)
  · intro hs
    obtain ⟨x, hxq, hnode, hcost⟩ := inv.startW hs
    refine ⟨x, mem_removeFirst_of_ne hxq ?_, hnode, hcost⟩
    intro hxe
    rw [hxe] at hnode
    exact hs (hnode ▸ hvis)
  · intro u hu v w he hv
    obtain ⟨x, hxq, hnode, hcost⟩ := inv.edgeW u hu v w he hv
    refine ⟨x, mem_removeFirst_of_ne hxq ?_, hnode, hcost⟩
    intro hxe
    rw [hxe] at hnode
    exact hv (hnode ▸ hvis)

/-- Expanding an unvisited non-goal node preserves the invariant, with
the ghost record extended by the finalization cost of that node. -/
lemma inv_expand {g : Graph} {s goal : Node} {queue rest : List Entry}
    {e : Entry} {visited : List Node} {D : Node → Nat}
    {edges : List (Node × Nat)}
    (inv : Inv g s goal queue visited D)
    (hpop : heappop queue = Option.some (e, rest))
    (hvis : e.node ∉ visited) (hgoal : e.node ≠ goal)
    (hlk : lookupGraph g e.node = Option.some edges) :
    Inv g s goal
      (rest ++ (edges.filter fun q => decide (q.1 ∉ e.node :: visited)).map
        fun q => Entry.mk (e.cost + q.2) q.1 (e.path ++ [q.1]))
      (e.node :: visited)
      (fun u => if u = e.node then e.cost else D u) := by
  obtain ⟨hmem, hrest, hminb⟩ := heappop_spec hpop
  have hmin : ∀ x ∈ queue, e.cost ≤ x.cost := heappop_cost_le hpop
  have hesound : PathCost g s e.node e.path e.cost := inv.sound e hmem
  have hkey : ∀ {v : Node} {p : List Node} {c : Nat},
      PathCost g s v p c → v ∉ visited → e.cost ≤ c :=
    fun hp hv => key_bound inv hmin hp hv
  subst hrest
  refine ⟨?_, ?_, ?_, ?_, ?_⟩
  · intro x hx
    rcases List.mem_append.mp hx with hx' | hx'
    · exact inv.sound x (removeFirst_subset hx')
    · obtain ⟨q, hq, hqx⟩ := List.mem_map.mp hx'
      have hqe : q ∈ edges := List.mem_of_mem_filter hq
      subst hqx
      exact PathCost.snoc _ _ _ _ _ hesound ⟨edges, hlk, hqe⟩
  · intro hs
    have hs' : s ∉ visited := fun h => hs (List.mem_cons_of_mem _ h)
    have hse : s ≠ e.node := fun h => hs (h ▸ List.mem_cons_self _ _)
    obtain ⟨x, hxq, hnode, hcost⟩ := inv.startW hs'
    refine ⟨x, List.mem_append.mpr (Or.inl (mem_removeFirst_of_ne hxq ?_)),
      hnode, hcost⟩
    intro hxe
    rw [hxe] at hnode
    exact hse hnode.symm
  · intro u hu v w he hv
    have hvvis : v ∉ visited := fun h => hv (List.mem_cons_of_mem _ h)
    have hvne : v ≠ e.node := fun h => hv (h ▸ List.mem_cons_self _ _)
    rcases List.mem_cons.mp hu with rfl | hu'
    · obtain ⟨es', hlk', hmem'⟩ := he
      rw [hlk] at hlk'
      simp only [Option.some.injEq] at hlk'
      subst hlk'
      refine ⟨Entry.mk (e.cost + w) v (e.path ++ [v]),
        List.mem_append.mpr (Or.inr ?_), rfl, ?_⟩
      · exact List.mem_map.mpr ⟨(v, w), List.mem_filter.mpr
          ⟨hmem', by simpa using hv⟩, rfl⟩
      · simp
    · obtain ⟨x, hxq, hnode, hcost⟩ := inv.edgeW u hu' v w he hvvis
      refine ⟨x, List.mem_append.mpr (Or.inl (mem_removeFirst_of_ne hxq ?_)),
        hnode, ?_⟩
      · intro hxe
        rw [hxe] at hnode
        exact hvne hnode.symm
      · have hune : u ≠ e.node := fun h => hvis (h ▸ hu')
        rw [if_neg hune]
        exact hcost
  · intro u hu p c hp
    rcases List.mem_cons.mp hu with rfl | hu'
    · rw [if_pos rfl]
      exact hkey hp hvis
    · have hune : u ≠ e.node := fun h => hvis (h ▸ hu')
      rw [if_neg hune]
      exact inv.visBound u hu' p c hp
  · intro hg
    rcases List.mem_cons.mp hg with rfl | hg'
    · exact hgoal rfl
    · exact inv.goalNotVis hg'

/-! ### Step equations for the loop -/

lemma ucsLoop_empty {g : Graph} {goal : Node} {fuel : Nat}
    {queue : List Entry} {visited : List Node}
    (hpop : heappop queue = Option.none) :
    ucsLoop g goal fuel queue visited = SearchResult.nopath := by
  cases fuel with
  | zero => simp only [ucsLoop, hpop]
  | succ fuel => simp only [ucsLoop, hpop]

lemma ucsLoop_zero_out {g : Graph} {goal : Node} {queue : List Entry}
    {visited : List Node} {pr : Entry × List Entry}
    (hpop : heappop queue = Option.some pr) :
    ucsLoop g goal 0 queue visited = SearchResult.outOfFuel := by
  simp only [ucsLoop, hpop]

lemma ucsLoop_goal {g : Graph} {goal : Node} {fuel : Nat}
    {queue rest : List Entry} {visited : List Node} {e : Entry}
    (hpop : heappop queue = Option.some (e, rest)) (hg : e.node = goal) :
    ucsLoop g goal (fuel + 1) queue visited =
      SearchResult.found e.path e.cost := by
  simp only [ucsLoop, hpop, if_pos hg]

lemma ucsLoop_skip {g : Graph} {goal : Node} {fuel : Nat}
    {queue rest : List Entry} {visited : List Node} {e : Entry}
    (hpop : heappop queue = Option.some (e, rest)) (hg : ¬ e.node = goal)
    (hvis : e.node ∈ visited) :
    ucsLoop g goal (fuel + 1) queue visited =
      ucsLoop g goal fuel rest visited := by
  simp only [ucsLoop, hpop, if_neg hg, if_pos hvis]

lemma ucsLoop_keyerr_step {g : Graph} {goal : Node} {fuel : Nat}
    {queue rest : List Entry} {visited : List Node} {e : Entry}
    (hpop : heappop queue = Option.some (e, rest)) (hg : ¬ e.node = goal)
    (hvis : e.node ∉ visited) (hlk : lookupGraph g e.node = Option.none) :
    ucsLoop g goal (fuel + 1) queue visited =
      SearchResult.keyError e.node := by
  simp only [ucsLoop, hpop, if_neg hg, if_neg hvis, hlk]

lemma ucsLoop_expand_step {g : Graph} {goal : Node} {fuel : Nat}
    {queue rest : List Entry} {visited : List Node} {e : Entry}
    {edges : List (Node × Nat)}
    (hpop : heappop queue = Option.some (e, rest)) (hg : ¬ e.node = goal)
    (hvis : e.node ∉ visited)
    (hlk : lookupGraph g e.node = Option.some edges) :
    ucsLoop g goal (fuel + 1) queue visited =
      ucsLoop g goal fuel
        (rest ++ (edges.filter fun q => decide (q.1 ∉ e.node :: visited)).map
          fun q => Entry.mk (e.cost + q.2) q.1 (e.path ++ [q.1]))
        (e.node :: visited) := by
  simp only [ucsLoop, hpop, if_neg hg, if_neg hvis, hlk]

/-- Whenever a path to an unvisited node exists, the frontier is
non-empty. -/
lemma frontier_nonempty {g : Graph} {s goal : Node} {queue : List Entry}
    {visited : List Node} {D : Node → Nat}
    (inv : Inv g s goal queue visited D) {v : Node} {p : List Node} {c : Nat}
    (hp : PathCost g s v p c) (hv : v ∉ visited) : ∃ x, x ∈ queue := by
  induction hp with
  | refl =>
    obtain ⟨e, he, _⟩ := inv.startW hv
    exact ⟨e, he⟩
  | snoc u v p c w hp he ih =>
    by_cases hu : u ∈ visited
    · obtain ⟨e, heq, _⟩ := inv.edgeW u hu v w he hv
      exact ⟨e, heq⟩
    · exact ih hu

/-- Any `found` result of the loop is a genuine minimum-cost path to
the goal, as long as the invariant holds. -/
lemma ucsLoop_found {g : Graph} {s goal : Node} :
    ∀ (fuel : Nat) (queue : List Entry) (visited : List Node) (D : Node → Nat),
      Inv g s goal queue visited D →
      ∀ {p : List Node} {c : Nat},
        ucsLoop g goal fuel queue visited = SearchResult.found p c →
        PathCost g s goal p c ∧
          ∀ p' c', PathCost g s goal p' c' → c ≤ c' := by
  intro fuel
  induction fuel with
  | zero =>
    intro queue visited D inv p c hres
    cases hpop : heappop queue with
    | none => rw [ucsLoop_empty hpop] at hres; cases hres
    | some pr => rw [ucsLoop_zero_out hpop] at hres; cases hres
  | succ fuel ih =>
    intro queue visited D inv p c hres
    cases hpop : heappop queue with
    | none => rw [ucsLoop_empty hpop] at hres; cases hres
    | some pr =>
      obtain ⟨e, rest⟩ := pr
      by_cases hg : e.node = goal
      · rw [ucsLoop_goal hpop hg] at hres
        obtain ⟨hp, hc⟩ := SearchResult.found.inj hres
        subst hp; subst hc
        have hsound := inv.sound e (heappop_spec hpop).1
        rw [hg] at hsound
        refine ⟨hsound, ?_⟩
        intro p' c' hp'
        exact key_bound inv (heappop_cost_le hpop) hp' (hg ▸ inv.goalNotVis)
      · by_cases hvis : e.node ∈ visited
        · rw [ucsLoop_skip hpop hg hvis] at hres
          exact ih rest visited D (inv_discard inv hpop hvis) hres
        · cases hlk : lookupGraph g e.node with
          | none => rw [ucsLoop_keyerr_step hpop hg hvis hlk] at hres; cases hres
          | some edges =>
            rw [ucsLoop_expand_step hpop hg hvis hlk] at hres
            exact ih _ _ _ (inv_expand inv hpop hvis hg hlk) hres

/-- With fuel at least the queue length plus the weight of the
unvisited part of the graph, the loop never runs out of fuel.  This
holds for every graph, start and goal. -/
lemma ucsLoop_no_fuel_out {g : Graph} {goal : Node} :
    ∀ (fuel : Nat) (queue : List Entry) (visited : List Node),
      queue.length + unvisitedWeight g visited ≤ fuel →
      ucsLoop g goal fuel queue visited ≠ SearchResult.outOfFuel := by
  intro fuel
  induction fuel with
  | zero =>
    intro queue visited hμ
    have hq : queue = [] := by
      cases queue with
      | nil => rfl
      | cons x xs => simp at hμ
    subst hq
    rw [ucsLoop_empty (by rfl)]
    simp
  | succ fuel ih =>
    intro queue visited hμ
    cases hpop : heappop queue with
    | none => rw [ucsLoop_empty hpop]; simp
    | some pr =>
      obtain ⟨e, rest⟩ := pr
      have hlen : rest.length + 1 = queue.length := heappop_length hpop
      by_cases hg : e.node = goal
      · rw [ucsLoop_goal hpop hg]; simp
      · by_cases hvis : e.node ∈ visited
        · rw [ucsLoop_skip hpop hg hvis]
          exact ih rest visited (by omega)
        · cases hlk : lookupGraph g e.node with
          | none => rw [ucsLoop_keyerr_step hpop hg hvis hlk]; simp
          | some edges =>
            rw [ucsLoop_expand_step hpop hg hvis hlk]
            apply ih
            have hw := unvisitedWeight_expand hlk hvis
            have hpl :
                ((edges.filter fun q => decide (q.1 ∉ e.node :: visited)).map
                  fun q => Entry.mk (e.cost + q.2) q.1
                    (e.path ++ [q.1])).length ≤ edges.length := by
              rw [List.length_map]
              exact List.length_filter_le _ _
            rw [List.length_append]
            omega

/-- When every reachable node is a key of the graph, the loop never
raises `KeyError`. -/
lemma ucsLoop_no_keyerr {g : Graph} {s goal : Node}
    (hclosed : KeysClosed g s) :
    ∀ (fuel : Nat) (queue : List Entry) (visited : List Node) (D : Node → Nat),
      Inv g s goal queue visited D →
      ∀ n, ucsLoop g goal fuel queue visited ≠ SearchResult.keyError n := by
  intro fuel
  induction fuel with
  | zero =>
    intro queue visited D inv n
    cases hpop : heappop queue with
    | none => rw [ucsLoop_empty hpop]; simp
    | some pr => rw [ucsLoop_zero_out hpop]; simp
  | succ fuel ih =>
    intro queue visited D inv n
    cases hpop : heappop queue with
    | none => rw [ucsLoop_empty hpop]; simp
    | some pr =>
      obtain ⟨e, rest⟩ := pr
      by_cases hg : e.node = goal
      · rw [ucsLoop_goal hpop hg]; simp
      · by_cases hvis : e.node ∈ visited
        · rw [ucsLoop_skip hpop hg hvis]
          exact ih rest visited D (inv_discard inv hpop hvis) n
        · cases hlk : lookupGraph g e.node with
          | none =>
            have hreach : Reachable g s e.node :=
              ⟨e.path, e.cost, inv.sound e (heappop_spec hpop).1⟩
            have hkey := hclosed e.node hreach
            rw [isKey, hlk] at hkey
            cases hkey
          | some edges =>
            rw [ucsLoop_expand_step hpop hg hvis hlk]
            exact ih _ _ _ (inv_expand inv hpop hvis hg hlk) n

/-- Completeness: when the goal is reachable, the keys are closed and
the fuel is sufficient, the loop returns a `found` result. -/
lemma ucsLoop_complete {g : Graph} {s goal : Node}
    (hclosed : KeysClosed g s) :
    ∀ (fuel : Nat) (queue : List Entry) (visited : List Node) (D : Node → Nat),
      Inv g s goal queue visited D →
      (∃ p c, PathCost g s goal p c) →
      queue.length + unvisitedWeight g visited ≤ fuel →
      ∃ p c, ucsLoop g goal fuel queue visited = SearchResult.found p c := by
  intro fuel
  induction fuel with
  | zero =>
    intro queue visited D inv hpath hμ
    obtain ⟨p, c, hp⟩ := hpath
    obtain ⟨x, hx⟩ := frontier_nonempty inv hp inv.goalNotVis
    cases queue with
    | nil => cases hx
    | cons y ys => simp at hμ
  | succ fuel ih =>
    intro queue visited D inv hpath hμ
    obtain ⟨p, c, hp⟩ := hpath
    cases hpop : heappop queue with
    | none =>
      obtain ⟨x, hx⟩ := frontier_nonempty inv hp inv.goalNotVis
      rw [heappop_nil_iff.mp hpop] at hx
      cases hx
    | some pr =>
      obtain ⟨e, rest⟩ := pr
      have hlen : rest.length + 1 = queue.length := heappop_length hpop
      by_cases hg : e.node = goal
      · exact ⟨e.path, e.cost, ucsLoop_goal hpop hg⟩
      · by_cases hvis : e.node ∈ visited
        · rw [ucsLoop_skip hpop hg hvis]
          exact ih rest visited D (inv_discard inv hpop hvis) ⟨p, c, hp⟩
            (by omega)
        · cases hlk : lookupGraph g e.node with
          | none =>
            have hreach : Reachable g s e.node :=
              ⟨e.path, e.cost, inv.sound e (heappop_spec hpop).1⟩
            have hkey := hclosed e.node hreach
            rw [isKey, hlk] at hkey
            cases hkey
          | some edges =>
            rw [ucsLoop_expand_step hpop hg hvis hlk]
            apply ih _ _ _ (inv_expand inv hpop hvis hg hlk) ⟨p, c, hp⟩
            have hw := unvisitedWeight_expand hlk hvis
            have hpl :
                ((edges.filter fun q => decide (q.1 ∉ e.node :: visited)).map
                  fun q => Entry.mk (e.cost + q.2) q.1
                    (e.path ++ [q.1])).length ≤ edges.length := by
              rw [List.length_map]
              exact List.length_filter_le _ _
            rw [List.length_append]
            omega

/-! ### Top-level wrappers -/

lemma search_found_spec {g : Graph} {s t : Node} {p : List Node} {c : Nat}
    (h : uniform_cost_search g s t = SearchResult.found p c) :
    PathCost g s t p c ∧ ∀ p' c', PathCost g s t p' c' → c ≤ c' := by
  simp only [uniform_cost_search] at h
  exact ucsLoop_found (graphFuel g) _ _ (fun _ => 0) (inv_init g s t) h

lemma search_no_fuel_out (g : Graph) (s t : Node) :
    uniform_cost_search g s t ≠ SearchResult.outOfFuel := by
  simp only [uniform_cost_search]
  apply ucsLoop_no_fuel_out
  simp [graphFuel]
  omega

lemma search_no_keyerr {g : Graph} {s : Node} (hclosed : KeysClosed g s)
    (t n : Node) :
    uniform_cost_search g s t ≠ SearchResult.keyError n := by
  simp only [uniform_cost_search]
  exact ucsLoop_no_keyerr hclosed (graphFuel g) _ _ (fun _ => 0)
    (inv_init g s t) n

lemma search_complete {g : Graph} {s t : Node} (hclosed : KeysClosed g s)
    (hpath : ∃ p c, PathCost g s t p c) :
    ∃ p c, uniform_cost_search g s t = SearchResult.found p c := by
  simp only [uniform_cost_search]
  apply ucsLoop_complete hclosed (graphFuel g) _ _ (fun _ => 0)
    (inv_init g s t) hpath
  simp [graphFuel]
  omega

/-! ### The loop instrumented with its expansion trace

`ucsLoopT` is `ucsLoop` extended, in its second component, with the
ordered list of nodes expanded during the remaining run — exactly the
nodes whose edge lists the `for` loop of `src/main.py` iterates. -/

def ucsLoopT (g : Graph) (goal : Node) :
    Nat → List Entry → List Node → SearchResult × List Node
  | 0, queue, _ =>
    match heappop queue with
    | Option.none => (SearchResult.nopath, [])
    | Option.some _ => (SearchResult.outOfFuel, [])
  | fuel + 1, queue, visited =>
    match heappop queue with
    | Option.none => (SearchResult.nopath, [])
    | Option.some (e, rest) =>
      if e.node = goal then (SearchResult.found e.path e.cost, [])
      else if e.node ∈ visited then ucsLoopT g goal fuel rest visited
      else
        match lookupGraph g e.node with
        | Option.none => (SearchResult.keyError e.node, [])
        | Option.some edges =>
          ((ucsLoopT g goal fuel
            (rest ++ (edges.filter fun q => decide (q.1 ∉ e.node :: visited)).map
              fun q => Entry.mk (e.cost + q.2) q.1 (e.path ++ [q.1]))
            (e.node :: visited)).1,
           e.node :: (ucsLoopT g goal fuel
            (rest ++ (edges.filter fun q => decide (q.1 ∉ e.node :: visited)).map
              fun q => Entry.mk (e.cost + q.2) q.1 (e.path ++ [q.1]))
            (e.node :: visited)).2)

/-- The traced search: same run as `uniform_cost_search`, plus the list
of expanded nodes. -/
def searchTrace (g : Graph) (start goal : Node) : SearchResult × List Node :=
  ucsLoopT g goal (graphFuel g) [Entry.mk 0 start [start]] []

lemma ucsLoopT_fst (g : Graph) (goal : Node) :
    ∀ (fuel : Nat) (queue : List Entry) (visited : List Node),
      (ucsLoopT g goal fuel queue visited).1 =
        ucsLoop g goal fuel queue visited := by
  intro fuel
  induction fuel with
  | zero =>
    intro queue visited
    cases hpop : heappop queue with
    | none => simp only [ucsLoopT, ucsLoop, hpop]
    | some pr => simp only [ucsLoopT, ucsLoop, hpop]
  | succ fuel ih =>
    intro queue visited
    cases hpop : heappop queue with
    | none => simp only [ucsLoopT, ucsLoop, hpop]
    | some pr =>
      obtain ⟨e, rest⟩ := pr
      simp only [ucsLoopT, ucsLoop, hpop]
      by_cases hg : e.node = goal
      · rw [if_pos hg, if_pos hg]
      · rw [if_neg hg, if_neg hg]
        by_cases hvis : e.node ∈ visited
        · rw [if_pos hvis, if_pos hvis]
          exact ih rest visited
        · rw [if_neg hvis, if_neg hvis]
          cases hlk : lookupGraph g e.node with
          | none => simp only [hlk]
          | some edges =>
            simp only [hlk]
            exact ih _ _

lemma ucsLoopT_trace (g : Graph) (goal : Node) :
    ∀ (fuel : Nat) (queue : List Entry) (visited : List Node),
      (∀ n ∈ (ucsLoopT g goal fuel queue visited).2, n ∉ visited) ∧
        (ucsLoopT g goal fuel queue visited).2.Nodup := by
  intro fuel
  induction fuel with
  | zero =>
    intro queue visited
    cases hpop : heappop queue with
    | none => simp only [ucsLoopT, hpop]; simp
    | some pr => simp only [ucsLoopT, hpop]; simp
  | succ fuel ih =>
    intro queue visited
    cases hpop : heappop queue with
    | none => simp only [ucsLoopT, hpop]; simp
    | some pr =>
      obtain ⟨e, rest⟩ := pr
      simp only [ucsLoopT, hpop]
      by_cases hg : e.node = goal
      · rw [if_pos hg]; simp
      · rw [if_neg hg]
        by_cases hvis : e.node ∈ visited
        · rw [if_pos hvis]
          exact ih rest visited
        · rw [if_neg hvis]
          cases hlk : lookupGraph g e.node with
          | none => simp only [hlk]; simp
          | some edges =>
            simp only [hlk]
            obtain ⟨hfresh, hnd⟩ := ih
              (rest ++ (edges.filter fun q =>
                decide (q.1 ∉ e.node :: visited)).map
                fun q => Entry.mk (e.cost + q.2) q.1 (e.path ++ [q.1]))
              (e.node :: visited)
            constructor
            · intro n hn
              rcases List.mem_cons.mp hn with rfl | hn'
              · exact hvis
              · intro hcon
                exact hfresh n hn' (List.mem_cons_of_mem _ hcon)
            · refine List.nodup_cons.mpr ⟨?_, hnd⟩
              intro hcon
              exact hfresh e.node hcon (List.mem_cons_self _ _)

/-! ### Small concrete graphs used to separate claims from the code -/

/-- A graph whose node `B` appears as an edge target but not as a key:
expanding `B` makes `graph[B]` raise `KeyError`. -/
def missingGraph : Graph := [("A", [("B", 1)])]

/-- A closed one-node graph with an empty edge list. -/
def soloGraph : Graph := [("A", [])]

lemma missingGraph_reach {v : Node} {p : List Node} {c : Nat}
    (h : PathCost missingGraph "A" v p c) : v = "A" ∨ v = "B" := by
  induction h with
  | refl => left; rfl
  | snoc u v p c w hp he ih =>
    obtain ⟨es, hlk, hmem⟩ := he
    rcases ih with rfl | rfl
    · have hes : es = [("B", 1)] := by
        have h0 : lookupGraph missingGraph "A" = Option.some [("B", 1)] := rfl
        rw [h0] at hlk
        exact (Option.some.inj hlk).symm
      subst hes
      right
      simpa using congrArg Prod.fst (List.mem_singleton.mp hmem)
    · have h0 : lookupGraph missingGraph "B" = Option.none := rfl
      rw [h0] at hlk
      cases hlk

lemma soloGraph_reach {v : Node} {p : List Node} {c : Nat}
    (h : PathCost soloGraph "A" v p c) : v = "A" := by
  induction h with
  | refl => rfl
  | snoc u v p c w hp he ih =>
    obtain ⟨es, hlk, hmem⟩ := he
    subst ih
    have h0 : lookupGraph soloGraph "A" = Option.some [] := rfl
    rw [h0] at hlk
    rw [← Option.some.inj hlk] at hmem
    cases hmem

/-! ### The claims -/

/-- C1.  For every finite directed graph with non-negative edge costs in
which every node reachable from the start is present as a key, and every
start and goal such that at least one path from start to goal exists,
`uniform_cost_search` returns a pair whose cost component equals the
minimum total cost over all (simple or non-simple) paths from start to
goal: the returned cost is realised by a path and is a lower bound on
the cost of every path. -/
theorem ucs_optimal (g : Graph) (start goal : Node)
    (hclosed : KeysClosed g start)
    (hpath : ∃ p c, PathCost g start goal p c) :
    ∃ p c, uniform_cost_search g start goal = SearchResult.found p c ∧
      PathCost g start goal p c ∧
      ∀ p' c', PathCost g start goal p' c' → c ≤ c' := by
  obtain ⟨p, c, hres⟩ := search_complete hclosed hpath
  obtain ⟨hp, hmin⟩ := search_found_spec hres
  exact ⟨p, c, hres, hp, hmin⟩

theorem ucs_optimal_witness :
    ∃ p c, uniform_cost_search mainGraph "A" "C" = SearchResult.found p c ∧
      PathCost mainGraph "A" "C" p c ∧
      ∀ p' c', PathCost mainGraph "A" "C" p' c' → c ≤ c' :=
  ucs_optimal mainGraph "A" "C" (keysClosedB_implies (by decide))
    ⟨["A", "C"], 5, PathCost.snoc "A" "C" ["A"] 0 5 PathCost.refl
      ⟨[("B", 1), ("C", 5)], rfl, by decide⟩⟩

/-- C2.  For every graph, start and goal, whenever the search returns a
pair `(path, cost)`, the path starts at `start`, ends at `goal`, every
consecutive pair of nodes is a directed edge present in the graph, and
the edge costs along the path sum to the returned cost (`PathCost`). -/
theorem ucs_path_valid (g : Graph) (s t : Node) (p : List Node) (c : Nat)
    (h : uniform_cost_search g s t = SearchResult.found p c) :
    p.head? = Option.some s ∧ p.getLast? = Option.some t ∧
    List.Chain' (fun a b => ∃ w, hasEdge g a b w) p ∧
    PathCost g s t p c := by
  have hp := (search_found_spec h).1
  exact ⟨pathCost_head hp, pathCost_last hp, pathCost_chain hp, hp⟩

theorem ucs_path_valid_witness :
    (["A", "B", "C"] : List Node).head? = Option.some "A" ∧
    (["A", "B", "C"] : List Node).getLast? = Option.some "C" ∧
    List.Chain' (fun a b => ∃ w, hasEdge mainGraph a b w) ["A", "B", "C"] ∧
    PathCost mainGraph "A" "C" ["A", "B", "C"] 3 :=
  ucs_path_valid mainGraph "A" "C" ["A", "B", "C"] 3 (by decide)

/-- C3, counterexample.  On the ten-node graph of `src/test.py` the
search does not return the path `['A','C','F','H','J']` claimed by the
spec (that path costs 11, not 9). -/
theorem scenario2_counterexample :
    uniform_cost_search testGraph "A" "J" ≠
      SearchResult.found ["A", "C", "F", "H", "J"] 9 := by
  decide

/-- C3, amended.  On the ten-node graph of `src/test.py`,
`uniform_cost_search(graph, A, J)` returns total cost 9 via the path
`['A','B','F','H','J']`. -/
theorem scenario2_amended :
    uniform_cost_search testGraph "A" "J" =
      SearchResult.found ["A", "B", "F", "H", "J"] 9 := by
  decide

/-- C4, counterexample.  Expanding node `B`, which appears as an edge
target but not as a key of the mapping, raises `KeyError` instead of
behaving as an empty edge list. -/
theorem missing_key_counterexample :
    uniform_cost_search missingGraph "A" "C" =
      SearchResult.keyError "B" := by
  decide

/-- C4, amended.  The lookup `graph[current_node]` raises `KeyError`
when the expanded node is absent from the mapping; the search never
fails when every node reachable from the start (in particular every
node with an empty edge list) is present as a key. -/
theorem ucs_no_keyerror (g : Graph) (s t : Node)
    (hclosed : KeysClosed g s) (n : Node) :
    uniform_cost_search g s t ≠ SearchResult.keyError n :=
  search_no_keyerr hclosed t n

theorem ucs_no_keyerror_witness :
    uniform_cost_search mainGraph "A" "C" ≠ SearchResult.keyError "B" :=
  ucs_no_keyerror mainGraph "A" "C" (keysClosedB_implies (by decide)) "B"

/-- C5, counterexample.  With `B` reachable but absent as a key and no
path from `A` to `C`, the search raises `KeyError` instead of returning
the absence value. -/
theorem nopath_counterexample :
    (¬ ∃ p c, PathCost missingGraph "A" "C" p c) ∧
    uniform_cost_search missingGraph "A" "C" = SearchResult.keyError "B" ∧
    SearchResult.keyError "B" ≠ SearchResult.nopath := by
  refine ⟨?_, by decide, by decide⟩
  rintro ⟨p, c, h⟩
  rcases missingGraph_reach h with h' | h' <;> exact absurd h' (by decide)

/-- C5, amended.  For every graph in which every node reachable from
the start is present as a key, and every start and goal with no path
from start to goal, the search returns the explicit absence value
(`None`), not an exception and not a partial path. -/
theorem ucs_nopath (g : Graph) (s t : Node) (hclosed : KeysClosed g s)
    (hnp : ¬ ∃ p c, PathCost g s t p c) :
    uniform_cost_search g s t = SearchResult.nopath := by
  cases hres : uniform_cost_search g s t with
  | found p c => exact absurd ⟨p, c, (search_found_spec hres).1⟩ hnp
  | nopath => rfl
  | keyError n => exact absurd hres (search_no_keyerr hclosed t n)
  | outOfFuel => exact absurd hres (search_no_fuel_out g s t)

theorem ucs_nopath_witness :
    uniform_cost_search soloGraph "A" "B" = SearchResult.nopath :=
  ucs_nopath soloGraph "A" "B" (keysClosedB_implies (by decide))
    (fun h => by
      obtain ⟨p, c, hp⟩ := h
      exact absurd (soloGraph_reach hp) (by decide))

/-- C6.  For every graph and every node `X`, searching from `X` to `X`
returns `([X], 0)`, including when `X` has no outgoing edges or is
absent from the mapping: the initial entry is popped and returned
before any lookup of `X`. -/
theorem ucs_trivial (g : Graph) (X : Node) :
    uniform_cost_search g X X = SearchResult.found [X] 0 := by
  have hpop : heappop [Entry.mk 0 X [X]] =
      Option.some (Entry.mk 0 X [X], []) := by
    simp [heappop, minEntry, removeFirst]
  simp only [uniform_cost_search, graphFuel]
  rw [ucsLoop_goal hpop rfl]

/-- C7.  For every finite graph (cyclic or not) and every start and
goal, the search terminates: the loop, run with the fuel supplied by
`uniform_cost_search` (bounded via the monotone growth of the visited
set), never exhausts its fuel. -/
theorem ucs_terminates (g : Graph) (s t : Node) :
    uniform_cost_search g s t ≠ SearchResult.outOfFuel :=
  search_no_fuel_out g s t

/-- C8.  The traced run agrees with `uniform_cost_search`, and its list
of expanded nodes — the nodes whose edge lists the `for` loop iterates,
each added to the visited set at expansion — contains no duplicates:
once visited, a node is never expanded again, and no edge list is
iterated more than once per call. -/
theorem ucs_expand_once (g : Graph) (s t : Node) :
    (searchTrace g s t).1 = uniform_cost_search g s t ∧
    (searchTrace g s t).2.Nodup := by
  constructor
  · exact ucsLoopT_fst g t (graphFuel g) [Entry.mk 0 s [s]] []
  · exact (ucsLoopT_trace g t (graphFuel g) [Entry.mk 0 s [s]] []).2

/-- C9.  The search is deterministic and free of hidden state: it is a
pure function of its three inputs, so two calls with identical inputs
return identical results. -/
theorem ucs_deterministic (g1 g2 : Graph) (s1 s2 t1 t2 : Node)
    (hg : g1 = g2) (hs : s1 = s2) (ht : t1 = t2) :
    uniform_cost_search g1 s1 t1 = uniform_cost_search g2 s2 t2 := by
  subst hg; subst hs; subst ht; rfl

theorem ucs_deterministic_witness :
    uniform_cost_search mainGraph "A" "C" =
      uniform_cost_search mainGraph "A" "C" :=
  ucs_deterministic mainGraph mainGraph "A" "A" "C" "C" rfl rfl rfl

/-- C10.  When the frontier holds another entry `x` with the same
accumulated cost as the popped entry `e`, the popped entry is the one
whose `(node, path)` tuple is lexicographically smaller — equal-cost
ties are resolved by comparing node identifiers and then paths, not by
insertion order. -/
theorem heap_tiebreak (queue rest : List Entry) (e x : Entry)
    (hpop : heappop queue = Option.some (e, rest)) (hx : x ∈ queue)
    (hcost : x.cost = e.cost) (hne : x ≠ e) :
    strLt e.node x.node = true ∨
      (e.node = x.node ∧ listLt e.path x.path = true) := by
  have hxe : entryLt x e = false := (heappop_spec hpop).2.2 x hx
  by_cases hn1 : strLt e.node x.node = true
  · exact Or.inl hn1
  · by_cases hn2 : strLt x.node e.node = true
    · have hcontra : entryLt x e = true := by
        rw [entryLt, hcost]
        simp [lt_irrefl, hn2]
      rw [hcontra] at hxe
      cases hxe
    · have hneq : e.node = x.node :=
        (strLt_connex (bool_eq_false hn2) (bool_eq_false hn1)).symm
      refine Or.inr ⟨hneq, ?_⟩
      cases hlp : listLt e.path x.path with
      | true => rfl
      | false =>
        have hpx : listLt x.path e.path = false := by
          cases hpx' : listLt x.path e.path with
          | false => rfl
          | true =>
            have hcontra : entryLt x e = true := by
              rw [entryLt, hcost]
              simp [lt_irrefl, hn1, hn2, hpx']
            rw [hcontra] at hxe
            cases hxe
        have hpeq : x.path = e.path := listLt_connex hpx hlp
        have hxeq : x = e := by
          cases x with
          | mk xc xn xp =>
            cases e with
            | mk ec en ep => simp_all
        exact absurd hxeq hne

theorem heap_tiebreak_witness :
    strLt "B" "F" = true ∨
      (("B" : Node) = "F" ∧
        listLt ["A", "C", "B"] ["A", "B", "F"] = true) :=
  heap_tiebreak
    [Entry.mk 5 "F" ["A", "B", "F"], Entry.mk 5 "B" ["A", "C", "B"]]
    [Entry.mk 5 "F" ["A", "B", "F"]]
    (Entry.mk 5 "B" ["A", "C", "B"]) (Entry.mk 5 "F" ["A", "B", "F"])
    (by decide) (by decide) (by decide) (by decide)

end UCS
